import Mathlib

/-!
Verification development for the git script sync tool (`auto.py`).

The source program mirrors a local scripts directory into a per-user
namespace of a git working copy and then commits and pushes the result.
We embed the four core functions (`setup_git_repo`, `copy_scripts_to_repo`,
`commit_and_push_changes`, `sync_to_git`) shallowly:

* the filesystem is a tree of named entries (`Entry`);
* Python exceptions are modelled with `Except Unit` (an uncaught exception
  is `Except.error ()`);
* every `git` subprocess invocation goes through a `GitBehavior` record
  that returns the `(success, stdout, new state)` triple the code consumes,
  exactly as `run_git_command` returns `(bool, str)`; a distinguished
  `honestGit` instance gives the real semantics of the five git operations
  (pull / clone / status / add / commit / push), with network failures
  controlled by a `NetEnv`;
* per-app-folder filesystem failures (`shutil.rmtree`, `shutil.copytree`)
  are controlled by an `FsEnv` oracle.
-/

namespace ScriptSync

/-- Models Python `name.endswith(ext)`: exact, case-sensitive suffix test
on the character sequence. -/
def py_endswith (name ext : String) : Bool :=
  ext.data.isSuffixOf name.data

/-- Models Python `name.startswith('.')` as used for the hidden-folder
check in `copy_scripts_to_repo`. -/
def startswithDot (name : String) : Bool :=
  match name.data with
  | [] => false
  | c :: _ => decide (c = '.')

/-- Python whitespace for `str.strip()`. -/
def isPySpace (c : Char) : Bool :=
  decide (c = ' ') || decide (c = '\t') || decide (c = '\n') || decide (c = '\r')

/-- Models Python `not output.strip()`: true iff the string is empty after
stripping leading and trailing whitespace. -/
def py_strip_empty (s : String) : Bool :=
  (s.data.dropWhile isPySpace).isEmpty

/-- The exclusion predicate of the Mirror Copier, from
`any(file_path.name.endswith(ext) for ext in excluded_extensions)`. -/
def shouldExclude (name : String) (excluded_extensions : List String) : Bool :=
  excluded_extensions.any (fun ext => py_endswith name ext)

/-- A filesystem entry: a regular file with contents, or a directory with a
list of named children (as a real directory listing, names are expected to
be distinct; lemmas that need this take a `keysNodup` hypothesis). -/
inductive Entry where
  | file (content : String)
  | dir (entries : List (String × Entry))

/-- Models Python `item.is_dir()`. -/
def Entry.isDir : Entry → Bool
  | .file _ => false
  | .dir _ => true

/-- The loop condition `item.is_dir() and not item.name.startswith('.')`
selecting which top-level entries of the scripts directory are AppFolders. -/
def isAppFolder (name : String) (e : Entry) : Bool :=
  e.isDir && !(startswithDot name)

mutual
/-- Boolean equality of filesystem trees (used by the honest git semantics
to decide whether the working tree differs from the committed tree). -/
def beqEntry : Entry → Entry → Bool
  | .file a, .file b => decide (a = b)
  | .dir as, .dir bs => beqEntries as bs
  | _, _ => false

/-- Boolean equality of directory listings. -/
def beqEntries : List (String × Entry) → List (String × Entry) → Bool
  | [], [] => true
  | (n, e) :: tl, (m, f) :: tl' => decide (n = m) && beqEntry e f && beqEntries tl tl'
  | _, _ => false
end

mutual
/-- Number of regular files in a tree (what the `copied_files` counter of
`copy_scripts_to_repo` counts after exclusion filtering). -/
def countEntry : Entry → Nat
  | .file _ => 1
  | .dir es => countEntries es

/-- Number of regular files in a directory listing. -/
def countEntries : List (String × Entry) → Nat
  | [] => 0
  | (_, e) :: tl => countEntry e + countEntries tl
end

mutual
/-- The post-copy exclusion walk of `copy_scripts_to_repo`: every regular
file whose name matches `shouldExclude` is deleted (`file_path.unlink()`);
directories are never deleted, only walked into. -/
def filterEntry (ex : List String) : Entry → Entry
  | .file c => .file c
  | .dir es => .dir (filterEntries ex es)

/-- The exclusion walk on a directory listing. -/
def filterEntries (ex : List String) : List (String × Entry) → List (String × Entry)
  | [] => []
  | (n, Entry.file c) :: rest =>
    if shouldExclude n ex then filterEntries ex rest
    else (n, Entry.file c) :: filterEntries ex rest
  | (n, Entry.dir es) :: rest => (n, Entry.dir (filterEntries ex es)) :: filterEntries ex rest
end

mutual
/-- Whether a (relative) path names an existing entry inside a tree. -/
def hasPath : List String → Entry → Bool
  | [], _ => true
  | _ :: _, .file _ => false
  | n :: rest, .dir es => hasPathIn n rest es
termination_by p _ => (p.length, 0)

/-- Whether some child named `n` of a directory listing contains `rest`. -/
def hasPathIn (n : String) (rest : List String) : List (String × Entry) → Bool
  | [] => false
  | (m, c) :: tl => (decide (m = n) && hasPath rest c) || hasPathIn n rest tl
termination_by l => (rest.length, l.length + 1)
end

/-- First entry of a directory listing with the given name (a filesystem
lookup of one path component). -/
def lookupEntry (k : String) : List (String × Entry) → Option Entry
  | [] => none
  | (n, e) :: tl => if n = k then some e else lookupEntry k tl

/-- Models `shutil.rmtree(target)` on the parent listing: the entry named
`k` is removed. -/
def eraseEntry (k : String) : List (String × Entry) → List (String × Entry)
  | [] => []
  | (n, e) :: tl => if n = k then eraseEntry k tl else (n, e) :: eraseEntry k tl

/-- Replace the contents of the entry named `k` in a listing (writing an
updated subtree back at the same position). -/
def updateEntry (k : String) (v : Entry) : List (String × Entry) → List (String × Entry)
  | [] => []
  | (n, e) :: tl => if n = k then (n, v) :: updateEntry k v tl else (n, e) :: updateEntry k v tl

/-- Membership of a name in a key list. -/
def keyMem (n : String) : List String → Bool
  | [] => false
  | k :: tl => if k = n then true else keyMem n tl

/-- Remove every entry whose name occurs in `ks`. -/
def removeKeys (ks : List String) : List (String × Entry) → List (String × Entry)
  | [] => []
  | (n, e) :: tl => if keyMem n ks then removeKeys ks tl else (n, e) :: removeKeys ks tl

/-- The names of a listing's entries, for uniqueness hypotheses. -/
def keysNodup (l : List (String × Entry)) : Prop :=
  (l.map Prod.fst).Nodup

/-- Oracle for filesystem failures during the mirror loop: `failRmtree n`
says that `shutil.rmtree` on the existing destination copy of app folder
`n` raises; `failCopy n` says that the `try` block (`shutil.copytree` or
the exclusion walk) for app folder `n` raises. -/
structure FsEnv where
  failRmtree : String → Bool
  failCopy : String → Bool

/-- The oracle under which no filesystem operation fails. -/
def noFailFs : FsEnv where
  failRmtree := fun _ => false
  failCopy := fun _ => false

/-- The per-app-folder loop of `copy_scripts_to_repo` over the entries of
the scripts directory, threading the destination namespace listing and the
`copied_files` counter.  The `shutil.rmtree` call (lines 111-112 of the
source) sits outside the `try`, so its failure propagates as an uncaught
exception (`Except.error ()`); a failure inside the `try` (lines 115-130)
is caught and the app folder is skipped. -/
def processFolders (fs : FsEnv) (ex : List String) :
    List (String × Entry) → List (String × Entry) → Nat →
    Except Unit (List (String × Entry) × Nat)
  | [], dest, count => Except.ok (dest, count)
  | (name, e) :: rest, dest, count =>
    if isAppFolder name e then
      match (lookupEntry name dest).isSome, fs.failRmtree name with
      | true, true => Except.error ()
      | existed, _ =>
        let dest' := if existed then eraseEntry name dest else dest
        if fs.failCopy name then
          processFolders fs ex rest dest' count
        else
          let tree := filterEntry ex e
          processFolders fs ex rest (dest' ++ [(name, tree)]) (count + countEntry tree)
    else
      processFolders fs ex rest dest count

/-- One step of the mirror loop as a pure function on the destination
listing (specification-side restatement used to characterise
`processFolders`). -/
def mirrorStep (fs : FsEnv) (ex : List String)
    (d : List (String × Entry)) (p : String × Entry) : List (String × Entry) :=
  if isAppFolder p.1 p.2 then
    if fs.failCopy p.1 then eraseEntry p.1 d
    else eraseEntry p.1 d ++ [(p.1, filterEntry ex p.2)]
  else d

/-- Names of the app folders in a source listing. -/
def appKeys : List (String × Entry) → List String
  | [] => []
  | (n, e) :: tl => if isAppFolder n e then n :: appKeys tl else appKeys tl

/-- The entries freshly written by the mirror loop, in final order. -/
def mirrorNew (fs : FsEnv) (ex : List String) : List (String × Entry) → List (String × Entry)
  | [] => []
  | (n, e) :: tl =>
    if isAppFolder n e then
      if fs.failCopy n then mirrorNew fs ex tl
      else if keyMem n (appKeys tl) then mirrorNew fs ex tl
      else (n, filterEntry ex e) :: mirrorNew fs ex tl
    else mirrorNew fs ex tl

/-- Total `copied_files` contribution of a source listing: every app folder
whose `try` block does not fail contributes the file count of its filtered
copy. -/
def mirrorTotal (fs : FsEnv) (ex : List String) : List (String × Entry) → Nat
  | [] => 0
  | (n, e) :: tl =>
    (if isAppFolder n e && !fs.failCopy n then countEntry (filterEntry ex e) else 0)
      + mirrorTotal fs ex tl

/-- Default of `config.get('sync', {}).get('exclude_extensions', ...)` at
line 99 of the source. -/
def defaultExcludeExtensions : List String := [".tmp", ".log", ".bak"]

/-- The configured exclusion suffix set: the config value when the
`sync.exclude_extensions` entry is present, the line-99 default otherwise. -/
def excludeExtensionsOf : Option (List String) → List String
  | none => defaultExcludeExtensions
  | some l => l

/-- The `sync.exclude_extensions` list written by
`create_sample_git_config` (lines 209-211 of the source). -/
def sampleConfigExcludeExtensions : List String :=
  [".tmp", ".log", ".bak", ".swp", ".DS_Store"]

/-- State of one sync run: the scripts source directory, whether the local
repository path exists, the working tree, the committed (`HEAD`) tree and
the remote branch tree.  Trees list only tracked content (the `.git`
metadata directory is not part of the model). -/
structure SyncState where
  scriptsRootExists : Bool
  scriptsRoot : List (String × Entry)
  repoExists : Bool
  worktree : List (String × Entry)
  headTree : List (String × Entry)
  remoteTree : List (String × Entry)

/-- The six git subprocess invocations the program issues. -/
inductive GitCmd where
  | pull
  | clone
  | status
  | add
  | commit
  | push
deriving DecidableEq

/-- Commands belonging to the Change Publisher stage
(`commit_and_push_changes`). -/
def isPublisherCmd : GitCmd → Bool
  | .status => true
  | .add => true
  | .commit => true
  | .push => true
  | _ => false

/-- The subprocess boundary: each git command returns the
`(success, stdout, state after the command)` triple the program consumes,
mirroring `run_git_command`'s `(bool, str)` contract. -/
structure GitBehavior where
  pull : SyncState → Bool × String × SyncState
  clone : SyncState → Bool × String × SyncState
  status : SyncState → Bool × String × SyncState
  addAll : SyncState → Bool × String × SyncState
  commit : SyncState → Bool × String × SyncState
  push : SyncState → Bool × String × SyncState

/-- Availability of the network for pull / clone / push. -/
structure NetEnv where
  pullOk : Bool
  cloneOk : Bool
  pushOk : Bool

/-- Effect of a successful `git pull origin main`: `HEAD` fast-forwards to
the remote branch; a clean working tree follows it, a dirty one keeps its
local modifications. -/
def applyPull (s : SyncState) : SyncState :=
  { s with headTree := s.remoteTree,
           worktree := if beqEntries s.worktree s.headTree then s.remoteTree else s.worktree }

/-- Honest semantics of the git tool.  `status` reports differences iff
the working tree differs from `HEAD`; `commit` (always run right after
`git add .`, so the index equals the working tree) fails with
nothing-to-commit iff the working tree equals `HEAD`, and otherwise makes
the working tree the new `HEAD`; `push` publishes `HEAD` to the remote. -/
def honestGit (net : NetEnv) : GitBehavior where
  pull s := if net.pullOk then (true, "", applyPull s) else (false, "network error", s)
  clone s :=
    if net.cloneOk then
      (true, "", { s with repoExists := true, worktree := s.remoteTree, headTree := s.remoteTree })
    else (false, "network error", s)
  status s := (true, if beqEntries s.worktree s.headTree then "" else "M modified", s)
  addAll s := (true, "", s)
  commit s :=
    if beqEntries s.worktree s.headTree then (false, "nothing to commit", s)
    else (true, "", { s with headTree := s.worktree })
  push s := if net.pushOk then (true, "", { s with remoteTree := s.headTree }) else (false, "network error", s)

/-- `setup_git_repo` (lines 59-81): reuse-and-pull when the repo path
exists (a pull failure is only a warning), clone when it does not (a clone
failure returns `False`). -/
def setup_git_repo (beh : GitBehavior) (s : SyncState) : Bool × SyncState × List GitCmd :=
  if s.repoExists then
    let r := beh.pull s
    (true, r.2.2, [GitCmd.pull])
  else
    let r := beh.clone s
    if r.1 then (true, r.2.2, [GitCmd.clone]) else (false, r.2.2, [GitCmd.clone])

/-- `user_folder_in_repo.mkdir(exist_ok=True)` (line 95): creates the
per-user namespace if absent; raises (`FileExistsError`) if the path
exists and is not a directory. -/
def mkdirUserFolder (user : String) (ws : List (String × Entry)) :
    Except Unit (List (String × Entry)) :=
  match lookupEntry user ws with
  | none => Except.ok (ws ++ [(user, Entry.dir [])])
  | some (Entry.dir _) => Except.ok ws
  | some (Entry.file _) => Except.error ()

/-- The listing of the per-user namespace inside the working tree. -/
def namespaceEntries (user : String) (ws : List (String × Entry)) : List (String × Entry) :=
  match lookupEntry user ws with
  | some (Entry.dir es) => es
  | _ => []

/-- `copy_scripts_to_repo` (lines 83-133): returns `False` straight away
when the scripts directory does not exist; otherwise ensures the user
namespace, runs the mirror loop and returns `copied_files > 0`, also
exposing the `copied_files` counter itself. -/
def copy_scripts_to_repo (fs : FsEnv) (cfgExclude : Option (List String)) (user : String)
    (s : SyncState) : Except Unit (SyncState × Nat × Bool) :=
  if s.scriptsRootExists then
    match mkdirUserFolder user s.worktree with
    | Except.error e => Except.error e
    | Except.ok ws =>
      let excluded_extensions := excludeExtensionsOf cfgExclude
      match processFolders fs excluded_extensions s.scriptsRoot (namespaceEntries user ws) 0 with
      | Except.error e => Except.error e
      | Except.ok (es, copied_files) =>
        Except.ok ({ s with worktree := updateEntry user (Entry.dir es) ws },
          copied_files, decide (0 < copied_files))
  else
    Except.ok (s, 0, false)

/-- Whether an optional entry is a regular file (the case in which
`mkdir(exist_ok=True)` on that path raises). -/
def isFileEntryOpt : Option Entry → Bool
  | some (Entry.file _) => true
  | _ => false

/-- The working tree after a successful `mkdir(exist_ok=True)` of the
user namespace. -/
def mkdirApplied (user : String) (ws : List (String × Entry)) : List (String × Entry) :=
  match lookupEntry user ws with
  | none => ws ++ [(user, Entry.dir [])]
  | some _ => ws

/-- The working tree produced by a fully successful mirror pass
(specification-side restatement used to characterise
`copy_scripts_to_repo`). -/
def mirrorWorktree (fs : FsEnv) (cfgExclude : Option (List String)) (user : String)
    (src : List (String × Entry)) (ws : List (String × Entry)) : List (String × Entry) :=
  updateEntry user
    (Entry.dir (List.foldl (mirrorStep fs (excludeExtensionsOf cfgExclude))
      (namespaceEntries user (mkdirApplied user ws)) src))
    (mkdirApplied user ws)

/-- A git-tool behaviour exhibiting the empty-stage edge case: the status
query reports differences, staging succeeds, but the commit step reports
nothing-to-commit (exits unsuccessfully). -/
def emptyStageGit : GitBehavior where
  pull s := (true, "", s)
  clone s := (true, "", s)
  status s := (true, "M modified", s)
  addAll s := (true, "", s)
  commit s := (false, "nothing to commit, working tree clean", s)
  push s := (true, "", s)

/-- `commit_and_push_changes` (lines 135-174): status query (fatal on
failure), early `True` when the stripped status output is empty, then
stage, commit and push, each fatal on failure.  The generated commit
message (user name and timestamp) does not influence control flow and is
not modelled. -/
def commit_and_push_changes (beh : GitBehavior) (s : SyncState) :
    Bool × SyncState × List GitCmd :=
  let r1 := beh.status s
  if !r1.1 then (false, r1.2.2, [GitCmd.status])
  else if py_strip_empty r1.2.1 then (true, r1.2.2, [GitCmd.status])
  else
    let r2 := beh.addAll r1.2.2
    if !r2.1 then (false, r2.2.2, [GitCmd.status, GitCmd.add])
    else
      let r3 := beh.commit r2.2.2
      if !r3.1 then (false, r3.2.2, [GitCmd.status, GitCmd.add, GitCmd.commit])
      else
        let r4 := beh.push r3.2.2
        (r4.1, r4.2.2, [GitCmd.status, GitCmd.add, GitCmd.commit, GitCmd.push])

/-- `sync_to_git` (lines 176-196): the orchestrator.  Aborts on a setup
failure; treats a `False` from `copy_scripts_to_repo` as the successful
"No scripts to sync" early exit; otherwise the publisher's verdict is the
run's verdict.  The result carries the verdict, the final state and the
list of git commands issued. -/
def sync_to_git (beh : GitBehavior) (fs : FsEnv) (cfgExclude : Option (List String))
    (user : String) (s : SyncState) : Except Unit (Bool × SyncState × List GitCmd) :=
  let r1 := setup_git_repo beh s
  if !r1.1 then Except.ok (false, r1.2.1, r1.2.2)
  else
    match copy_scripts_to_repo fs cfgExclude user r1.2.1 with
    | Except.error e => Except.error e
    | Except.ok (s2, _copied_files, copiedAny) =>
      if !copiedAny then Except.ok (true, s2, r1.2.2)
      else
        let r3 := commit_and_push_changes beh s2
        Except.ok (r3.1, r3.2.1, r1.2.2 ++ r3.2.2)

/-! ### Lemmas about tree equality and the association-list operations -/

mutual
theorem beqEntry_iff : ∀ (a b : Entry), beqEntry a b = true ↔ a = b
  | Entry.file x, Entry.file y => by simp [beqEntry]
  | Entry.file x, Entry.dir bs => by simp [beqEntry]
  | Entry.dir as, Entry.file y => by simp [beqEntry]
  | Entry.dir as, Entry.dir bs => by
      have h := beqEntries_iff as bs
      simp [beqEntry, h]

theorem beqEntries_iff : ∀ (as bs : List (String × Entry)), beqEntries as bs = true ↔ as = bs
  | [], [] => by simp [beqEntries]
  | [], (m, f) :: tl' => by simp [beqEntries]
  | (n, e) :: tl, [] => by simp [beqEntries]
  | (n, e) :: tl, (m, f) :: tl' => by
      have h1 := beqEntry_iff e f
      have h2 := beqEntries_iff tl tl'
      simp [beqEntries, h1, h2, Prod.ext_iff]
end

theorem beqEntries_self (as : List (String × Entry)) : beqEntries as as = true :=
  (beqEntries_iff as as).2 rfl

theorem lookupEntry_append_of_none {k : String} {a : List (String × Entry)}
    (h : lookupEntry k a = none) (b : List (String × Entry)) :
    lookupEntry k (a ++ b) = lookupEntry k b := by
  induction a with
  | nil => simp
  | cons hd tl ih =>
    obtain ⟨n, e⟩ := hd
    by_cases hn : n = k
    · simp [lookupEntry, hn] at h
    · simp only [lookupEntry, hn, if_false, List.cons_append] at h ⊢
      exact ih h

theorem lookupEntry_append_of_some {k : String} {a : List (String × Entry)} {e : Entry}
    (h : lookupEntry k a = some e) (b : List (String × Entry)) :
    lookupEntry k (a ++ b) = some e := by
  induction a with
  | nil => simp [lookupEntry] at h
  | cons hd tl ih =>
    obtain ⟨n, v⟩ := hd
    by_cases hn : n = k
    · simp_all [lookupEntry]
    · simp only [lookupEntry, hn, if_false, List.cons_append] at h ⊢
      exact ih h

theorem lookupEntry_eraseEntry_self (k : String) (l : List (String × Entry)) :
    lookupEntry k (eraseEntry k l) = none := by
  induction l with
  | nil => simp [eraseEntry, lookupEntry]
  | cons hd tl ih =>
    obtain ⟨n, v⟩ := hd
    by_cases hn : n = k <;> simp [eraseEntry, lookupEntry, hn, ih]

theorem lookupEntry_eraseEntry_ne {j k : String} (h : j ≠ k) (l : List (String × Entry)) :
    lookupEntry j (eraseEntry k l) = lookupEntry j l := by
  induction l with
  | nil => simp [eraseEntry]
  | cons hd tl ih =>
    obtain ⟨n, v⟩ := hd
    by_cases hn : n = k
    · subst hn
      have : ¬ n = j := fun hc => h hc.symm
      simp [eraseEntry, lookupEntry, this, ih]
    · by_cases hj : n = j <;> simp [eraseEntry, lookupEntry, hn, hj, ih, h]

theorem eraseEntry_of_lookup_none {k : String} {l : List (String × Entry)}
    (h : lookupEntry k l = none) : eraseEntry k l = l := by
  induction l with
  | nil => simp [eraseEntry]
  | cons hd tl ih =>
    obtain ⟨n, v⟩ := hd
    by_cases hn : n = k
    · simp [lookupEntry, hn] at h
    · simp only [lookupEntry, hn, if_false] at h
      simp [eraseEntry, hn, ih h]

theorem lookupEntry_updateEntry_self {k : String} {l : List (String × Entry)} {e : Entry}
    (h : lookupEntry k l = some e) (v : Entry) :
    lookupEntry k (updateEntry k v l) = some v := by
  induction l with
  | nil => simp [lookupEntry] at h
  | cons hd tl ih =>
    obtain ⟨n, w⟩ := hd
    by_cases hn : n = k
    · simp [updateEntry, lookupEntry, hn]
    · simp only [lookupEntry, hn, if_false] at h
      simp [updateEntry, lookupEntry, hn, ih h]

theorem lookupEntry_updateEntry_ne {j k : String} (h : j ≠ k) (v : Entry)
    (l : List (String × Entry)) :
    lookupEntry j (updateEntry k v l) = lookupEntry j l := by
  induction l with
  | nil => simp [updateEntry]
  | cons hd tl ih =>
    obtain ⟨n, w⟩ := hd
    by_cases hn : n = k
    · subst hn
      have : ¬ n = j := fun hc => h hc.symm
      simp [updateEntry, lookupEntry, this, ih]
    · by_cases hj : n = j <;> simp [updateEntry, lookupEntry, hn, hj, ih, h]

theorem updateEntry_updateEntry (k : String) (v : Entry) (l : List (String × Entry)) :
    updateEntry k v (updateEntry k v l) = updateEntry k v l := by
  induction l with
  | nil => simp [updateEntry]
  | cons hd tl ih =>
    obtain ⟨n, w⟩ := hd
    by_cases hn : n = k <;> simp [updateEntry, hn, ih]

/-! ### Characterisation of the mirror loop -/

theorem keyMem_iff (n : String) (ks : List String) : keyMem n ks = true ↔ n ∈ ks := by
  induction ks with
  | nil => simp [keyMem]
  | cons k tl ih =>
    by_cases hk : k = n
    · simp [keyMem, hk]
    · have : ¬ n = k := fun hc => hk hc.symm
      simp [keyMem, hk, ih, this]

theorem removeKeys_append (ks : List String) (a b : List (String × Entry)) :
    removeKeys ks (a ++ b) = removeKeys ks a ++ removeKeys ks b := by
  induction a with
  | nil => simp [removeKeys]
  | cons hd tl ih =>
    obtain ⟨n, v⟩ := hd
    by_cases hn : keyMem n ks = true
    · simp [removeKeys, hn, ih]
    · simp only [Bool.not_eq_true] at hn
      simp [removeKeys, hn, ih]

theorem removeKeys_eraseEntry (n : String) (ks : List String) (l : List (String × Entry)) :
    removeKeys (n :: ks) l = removeKeys ks (eraseEntry n l) := by
  induction l with
  | nil => simp [removeKeys, eraseEntry]
  | cons hd tl ih =>
    obtain ⟨m, v⟩ := hd
    by_cases hm : m = n
    · simp [removeKeys, eraseEntry, keyMem, hm, ih]
    · have hnm : ¬ n = m := fun hc => hm hc.symm
      by_cases hk : keyMem m ks = true <;>
        simp [removeKeys, eraseEntry, keyMem, hm, hnm, hk, ih]

theorem lookupEntry_removeKeys_of_mem {k : String} {ks : List String}
    (h : keyMem k ks = true) (l : List (String × Entry)) :
    lookupEntry k (removeKeys ks l) = none := by
  induction l with
  | nil => simp [removeKeys, lookupEntry]
  | cons hd tl ih =>
    obtain ⟨n, v⟩ := hd
    by_cases hn : keyMem n ks = true
    · simp [removeKeys, hn, ih]
    · have hnk : ¬ n = k := by
        intro hc
        rw [hc] at hn
        exact hn h
      simp [removeKeys, hn, lookupEntry, hnk, ih]

theorem removeKeys_idem (ks : List String) (l : List (String × Entry)) :
    removeKeys ks (removeKeys ks l) = removeKeys ks l := by
  induction l with
  | nil => simp [removeKeys]
  | cons hd tl ih =>
    obtain ⟨n, v⟩ := hd
    by_cases hn : keyMem n ks = true <;> simp [removeKeys, hn, ih]

theorem removeKeys_eq_nil {ks : List String} {l : List (String × Entry)}
    (h : ∀ p ∈ l, keyMem p.1 ks = true) : removeKeys ks l = [] := by
  induction l with
  | nil => simp [removeKeys]
  | cons hd tl ih =>
    obtain ⟨n, v⟩ := hd
    have hn := h (n, v) (List.mem_cons_self _ _)
    simp only [removeKeys, hn, if_true]
    exact ih fun p hp => h p (List.mem_cons_of_mem _ hp)

theorem removeKeys_nil (l : List (String × Entry)) : removeKeys [] l = l := by
  induction l with
  | nil => simp [removeKeys]
  | cons hd tl ih =>
    obtain ⟨n, v⟩ := hd
    simp [removeKeys, keyMem, ih]

theorem foldl_mirrorStep_eq (fs : FsEnv) (ex : List String) :
    ∀ (L : List (String × Entry)) (d : List (String × Entry)),
      List.foldl (mirrorStep fs ex) d L = removeKeys (appKeys L) d ++ mirrorNew fs ex L := by
  intro L
  induction L with
  | nil => intro d; simp [appKeys, removeKeys_nil, mirrorNew]
  | cons hd tl ih =>
    intro d
    obtain ⟨n, e⟩ := hd
    by_cases happ : isAppFolder n e = true
    · by_cases hcp : fs.failCopy n = true
      · simp only [List.foldl_cons, ih, mirrorStep, happ, if_true, hcp,
          appKeys, mirrorNew, Bool.not_eq_true]
        rw [removeKeys_eraseEntry]
      · simp only [Bool.not_eq_true] at hcp
        simp only [List.foldl_cons, ih, mirrorStep, happ, if_true, hcp, Bool.false_eq_true,
          if_false, appKeys, mirrorNew]
        rw [removeKeys_append, removeKeys_eraseEntry]
        by_cases hk : keyMem n (appKeys tl) = true
        · simp [removeKeys, hk]
        · simp only [Bool.not_eq_true] at hk
          simp [removeKeys, hk]
    · simp only [Bool.not_eq_true] at happ
      simp [List.foldl_cons, ih, mirrorStep, happ, appKeys, mirrorNew]

theorem mirrorNew_key_mem (fs : FsEnv) (ex : List String) :
    ∀ (L : List (String × Entry)) (p : String × Entry),
      p ∈ mirrorNew fs ex L → keyMem p.1 (appKeys L) = true := by
  intro L
  induction L with
  | nil => intro p hp; simp [mirrorNew] at hp
  | cons hd tl ih =>
    intro p hp
    obtain ⟨n, e⟩ := hd
    by_cases happ : isAppFolder n e = true
    · by_cases hcp : fs.failCopy n = true
      · simp only [mirrorNew, happ, if_true, hcp] at hp
        simp only [appKeys, happ, if_true, keyMem]
        by_cases hpn : n = p.1
        · simp [hpn]
        · simp [hpn, ih p hp]
      · simp only [Bool.not_eq_true] at hcp
        simp only [mirrorNew, happ, if_true, hcp, Bool.false_eq_true, if_false] at hp
        by_cases hk : keyMem n (appKeys tl) = true
        · simp only [hk, if_true] at hp
          simp only [appKeys, happ, if_true, keyMem]
          by_cases hpn : n = p.1
          · simp [hpn]
          · simp [hpn, ih p hp]
        · simp only [Bool.not_eq_true] at hk
          simp only [hk, Bool.false_eq_true, if_false, List.mem_cons] at hp
          rcases hp with hp | hp
          · simp [hp, appKeys, happ, keyMem]
          · simp only [appKeys, happ, if_true, keyMem]
            by_cases hpn : n = p.1
            · simp [hpn]
            · simp [hpn, ih p hp]
    · simp only [Bool.not_eq_true] at happ
      simp only [mirrorNew, happ, Bool.false_eq_true, if_false] at hp
      simp [appKeys, happ, ih p hp]

theorem removeKeys_mirrorNew (fs : FsEnv) (ex : List String) (L : List (String × Entry)) :
    removeKeys (appKeys L) (mirrorNew fs ex L) = [] :=
  removeKeys_eq_nil fun p hp => mirrorNew_key_mem fs ex L p hp

theorem foldl_mirrorStep_idem (fs : FsEnv) (ex : List String) (L d : List (String × Entry)) :
    List.foldl (mirrorStep fs ex) (List.foldl (mirrorStep fs ex) d L) L
      = List.foldl (mirrorStep fs ex) d L := by
  rw [foldl_mirrorStep_eq, foldl_mirrorStep_eq, removeKeys_append, removeKeys_idem,
    removeKeys_mirrorNew, List.append_nil]

theorem processFolders_eq {fs : FsEnv} (hrm : ∀ n, fs.failRmtree n = false) (ex : List String) :
    ∀ (L : List (String × Entry)) (d : List (String × Entry)) (c : Nat),
      processFolders fs ex L d c
        = Except.ok (List.foldl (mirrorStep fs ex) d L, c + mirrorTotal fs ex L) := by
  intro L
  induction L with
  | nil => intro d c; simp [processFolders, mirrorTotal]
  | cons hd tl ih =>
    intro d c
    obtain ⟨n, e⟩ := hd
    by_cases happ : isAppFolder n e = true
    · cases hl : lookupEntry n d with
      | none =>
        have herase : eraseEntry n d = d := eraseEntry_of_lookup_none hl
        by_cases hcp : fs.failCopy n = true
        · simp [processFolders, happ, hl, hrm n, hcp, ih, mirrorStep, herase, mirrorTotal]
        · simp only [Bool.not_eq_true] at hcp
          simp [processFolders, happ, hl, hrm n, hcp, ih, mirrorStep, herase, mirrorTotal,
            Nat.add_assoc]
      | some v =>
        by_cases hcp : fs.failCopy n = true
        · simp [processFolders, happ, hl, hrm n, hcp, ih, mirrorStep, mirrorTotal]
        · simp only [Bool.not_eq_true] at hcp
          simp [processFolders, happ, hl, hrm n, hcp, ih, mirrorStep, mirrorTotal,
            Nat.add_assoc]
    · simp only [Bool.not_eq_true] at happ
      simp [processFolders, happ, ih, mirrorStep, mirrorTotal]

theorem keyMem_appKeys_sub {k : String} :
    ∀ {L : List (String × Entry)}, keyMem k (appKeys L) = true → k ∈ L.map Prod.fst := by
  intro L
  induction L with
  | nil => intro h; simp [appKeys, keyMem] at h
  | cons hd tl ih =>
    intro h
    obtain ⟨n, e⟩ := hd
    by_cases happ : isAppFolder n e = true
    · simp only [appKeys, happ, if_true, keyMem] at h
      by_cases hn : n = k
      · simp [hn]
      · simp only [hn, Bool.false_eq_true, if_false] at h
        simp [ih h]
    · simp only [Bool.not_eq_true] at happ
      simp only [appKeys, happ, Bool.false_eq_true, if_false] at h
      simp [ih h]

theorem keyMem_appKeys_of_mem {m : String} {em : Entry} :
    ∀ {L : List (String × Entry)}, (m, em) ∈ L → isAppFolder m em = true →
      keyMem m (appKeys L) = true := by
  intro L
  induction L with
  | nil => intro h; simp at h
  | cons hd tl ih =>
    intro h happ
    obtain ⟨n, e⟩ := hd
    rcases List.mem_cons.1 h with heq | hmem
    · rw [Prod.mk.injEq] at heq
      obtain ⟨h1, h2⟩ := heq
      subst h1
      subst h2
      simp [appKeys, happ, keyMem]
    · by_cases happn : isAppFolder n e = true
      · simp only [appKeys, happn, if_true, keyMem]
        by_cases hn : n = m
        · simp [hn]
        · simp [hn, ih hmem happ]
      · simp only [Bool.not_eq_true] at happn
        simp [appKeys, happn, ih hmem happ]

theorem lookup_mirrorNew (fs : FsEnv) (ex : List String) :
    ∀ {L : List (String × Entry)}, keysNodup L → ∀ {m : String} {em : Entry},
      (m, em) ∈ L → isAppFolder m em = true → fs.failCopy m = false →
      lookupEntry m (mirrorNew fs ex L) = some (filterEntry ex em) := by
  intro L
  induction L with
  | nil => intro _ m em h; simp at h
  | cons hd tl ih =>
    intro hnd m em h happ hcp
    obtain ⟨n, e⟩ := hd
    simp only [keysNodup, List.map_cons, List.nodup_cons] at hnd
    obtain ⟨hn_notin, hnd_tl⟩ := hnd
    rcases List.mem_cons.1 h with heq | hmem
    · rw [Prod.mk.injEq] at heq
      obtain ⟨h1, h2⟩ := heq
      subst h1
      subst h2
      have hk : keyMem m (appKeys tl) = false := by
        by_contra hc
        simp only [Bool.not_eq_false] at hc
        exact hn_notin (keyMem_appKeys_sub hc)
      simp [mirrorNew, happ, hcp, hk, lookupEntry]
    · have hm_in : m ∈ tl.map Prod.fst := List.mem_map.2 ⟨(m, em), hmem, rfl⟩
      have hnm : ¬ n = m := fun hc => hn_notin (hc ▸ hm_in)
      have htl := ih hnd_tl hmem happ hcp
      by_cases happn : isAppFolder n e = true
      · by_cases hcpn : fs.failCopy n = true
        · simp [mirrorNew, happn, hcpn, htl]
        · simp only [Bool.not_eq_true] at hcpn
          by_cases hk : keyMem n (appKeys tl) = true
          · simp [mirrorNew, happn, hcpn, hk, htl]
          · simp only [Bool.not_eq_true] at hk
            simp [mirrorNew, happn, hcpn, hk, lookupEntry, hnm, htl]
      · simp only [Bool.not_eq_true] at happn
        simp [mirrorNew, happn, htl]

theorem lookup_foldl_mirror (fs : FsEnv) (ex : List String) {L : List (String × Entry)}
    (hnd : keysNodup L) {m : String} {em : Entry} (hm : (m, em) ∈ L)
    (happ : isAppFolder m em = true) (hcp : fs.failCopy m = false)
    (d : List (String × Entry)) :
    lookupEntry m (List.foldl (mirrorStep fs ex) d L) = some (filterEntry ex em) := by
  rw [foldl_mirrorStep_eq]
  rw [lookupEntry_append_of_none
    (lookupEntry_removeKeys_of_mem (keyMem_appKeys_of_mem hm happ) d)]
  exact lookup_mirrorNew fs ex hnd hm happ hcp

theorem processFolders_frame (fs : FsEnv) (ex : List String) :
    ∀ (L : List (String × Entry)) (d : List (String × Entry)) (c : Nat)
      (d' : List (String × Entry)) (c' : Nat) (k : String),
      processFolders fs ex L d c = Except.ok (d', c') → (∀ p ∈ L, p.1 ≠ k) →
      lookupEntry k d' = lookupEntry k d := by
  intro L
  induction L with
  | nil =>
    intro d c d' c' k h _
    simp only [processFolders, Except.ok.injEq, Prod.mk.injEq] at h
    rw [h.1]
  | cons hd tl ih =>
    intro d c d' c' k h hk
    obtain ⟨n, e⟩ := hd
    have hnk : n ≠ k := hk (n, e) (List.mem_cons_self _ _)
    have hktl : ∀ p ∈ tl, p.1 ≠ k := fun p hp => hk p (List.mem_cons_of_mem _ hp)
    have happend : ∀ (x : List (String × Entry)) (t : Entry),
        lookupEntry k (x ++ [(n, t)]) = lookupEntry k x := by
      intro x t
      cases hx : lookupEntry k x with
      | some v => exact lookupEntry_append_of_some hx _
      | none =>
        rw [lookupEntry_append_of_none hx]
        simp [lookupEntry, hnk]
    by_cases happ : isAppFolder n e = true
    · cases hl : lookupEntry n d with
      | none =>
        by_cases hcp : fs.failCopy n = true
        · simp only [processFolders, happ, if_true, hl, Option.isSome_none, hcp] at h
          exact ih _ _ _ _ _ h hktl
        · simp only [Bool.not_eq_true] at hcp
          simp only [processFolders, happ, if_true, hl, Option.isSome_none, hcp,
            Bool.false_eq_true, if_false] at h
          rw [ih _ _ _ _ _ h hktl, happend]
      | some v =>
        cases hr : fs.failRmtree n with
        | true => simp [processFolders, happ, hl, hr] at h
        | false =>
          have herase : lookupEntry k (eraseEntry n d) = lookupEntry k d :=
            lookupEntry_eraseEntry_ne (Ne.symm hnk) d
          by_cases hcp : fs.failCopy n = true
          · simp only [processFolders, happ, if_true, hl, Option.isSome_some, hr, hcp,
              if_true] at h
            rw [ih _ _ _ _ _ h hktl, herase]
          · simp only [Bool.not_eq_true] at hcp
            simp only [processFolders, happ, if_true, hl, Option.isSome_some, hr, hcp,
              Bool.false_eq_true, if_false, if_true] at h
            rw [ih _ _ _ _ _ h hktl, happend, herase]
    · simp only [Bool.not_eq_true] at happ
      simp only [processFolders, happ, Bool.false_eq_true, if_false] at h
      exact ih _ _ _ _ _ h hktl

theorem processFolders_ok_lookup (fs : FsEnv) (ex : List String) :
    ∀ (L : List (String × Entry)) (d : List (String × Entry)) (c : Nat)
      (d' : List (String × Entry)) (c' : Nat),
      processFolders fs ex L d c = Except.ok (d', c') → keysNodup L →
      ∀ {m : String} {em : Entry}, (m, em) ∈ L → isAppFolder m em = true →
        fs.failCopy m = false → lookupEntry m d' = some (filterEntry ex em) := by
  intro L
  induction L with
  | nil =>
    intro d c d' c' _ _ m em hm
    simp at hm
  | cons hd tl ih =>
    intro d c d' c' h hnd m em hm happ hcp
    obtain ⟨n, e⟩ := hd
    simp only [keysNodup, List.map_cons, List.nodup_cons] at hnd
    obtain ⟨hn_notin, hnd_tl⟩ := hnd
    rcases List.mem_cons.1 hm with heq | hmem
    · rw [Prod.mk.injEq] at heq
      obtain ⟨h1, h2⟩ := heq
      subst h1
      subst h2
      have hmtl : ∀ p ∈ tl, p.1 ≠ m := by
        intro p hp hc
        exact hn_notin (hc ▸ List.mem_map.2 ⟨p, hp, rfl⟩)
      cases hl : lookupEntry m d with
      | none =>
        simp only [processFolders, happ, if_true, hl, Option.isSome_none, hcp,
          Bool.false_eq_true, if_false] at h
        rw [processFolders_frame fs ex tl _ _ _ _ m h hmtl,
          lookupEntry_append_of_none hl]
        simp [lookupEntry]
      | some v =>
        cases hr : fs.failRmtree m with
        | true => simp [processFolders, happ, hl, hr] at h
        | false =>
          simp only [processFolders, happ, if_true, hl, Option.isSome_some, hr, hcp,
            Bool.false_eq_true, if_false, if_true] at h
          rw [processFolders_frame fs ex tl _ _ _ _ m h hmtl,
            lookupEntry_append_of_none (lookupEntry_eraseEntry_self m d)]
          simp [lookupEntry]
    · by_cases happn : isAppFolder n e = true
      · cases hl : lookupEntry n d with
        | none =>
          by_cases hcpn : fs.failCopy n = true
          · simp only [processFolders, happn, if_true, hl, Option.isSome_none, hcpn] at h
            exact ih _ _ _ _ h hnd_tl hmem happ hcp
          · simp only [Bool.not_eq_true] at hcpn
            simp only [processFolders, happn, if_true, hl, Option.isSome_none, hcpn,
              Bool.false_eq_true, if_false] at h
            exact ih _ _ _ _ h hnd_tl hmem happ hcp
        | some v =>
          cases hr : fs.failRmtree n with
          | true => simp [processFolders, happn, hl, hr] at h
          | false =>
            by_cases hcpn : fs.failCopy n = true
            · simp only [processFolders, happn, if_true, hl, Option.isSome_some, hr, hcpn,
                if_true] at h
              exact ih _ _ _ _ h hnd_tl hmem happ hcp
            · simp only [Bool.not_eq_true] at hcpn
              simp only [processFolders, happn, if_true, hl, Option.isSome_some, hr, hcpn,
                Bool.false_eq_true, if_false, if_true] at h
              exact ih _ _ _ _ h hnd_tl hmem happ hcp
      · simp only [Bool.not_eq_true] at happn
        simp only [processFolders, happn, Bool.false_eq_true, if_false] at h
        exact ih _ _ _ _ h hnd_tl hmem happ hcp

/-! ### The user namespace and the whole-of-mirror characterisation -/

theorem mkdirUserFolder_ok {user : String} {ws : List (String × Entry)}
    (h : isFileEntryOpt (lookupEntry user ws) = false) :
    mkdirUserFolder user ws = Except.ok (mkdirApplied user ws) := by
  unfold mkdirUserFolder mkdirApplied
  cases hl : lookupEntry user ws with
  | none => rfl
  | some v =>
    cases v with
    | file c => rw [hl] at h; simp [isFileEntryOpt] at h
    | dir es => rfl

theorem mkdirUserFolder_lookup_user {user : String} {ws0 ws : List (String × Entry)}
    (h : mkdirUserFolder user ws0 = Except.ok ws) :
    ∃ es, lookupEntry user ws = some (Entry.dir es) := by
  unfold mkdirUserFolder at h
  cases hl : lookupEntry user ws0 with
  | none =>
    rw [hl] at h
    simp only [Except.ok.injEq] at h
    subst h
    refine ⟨[], ?_⟩
    rw [lookupEntry_append_of_none hl]
    simp [lookupEntry]
  | some v =>
    cases v with
    | file c => rw [hl] at h; simp at h
    | dir es =>
      rw [hl] at h
      simp only [Except.ok.injEq] at h
      subst h
      exact ⟨es, hl⟩

theorem mkdirUserFolder_lookup_other {user : String} {ws0 ws : List (String × Entry)}
    (h : mkdirUserFolder user ws0 = Except.ok ws) {other : String} (hne : other ≠ user) :
    lookupEntry other ws = lookupEntry other ws0 := by
  unfold mkdirUserFolder at h
  cases hl : lookupEntry user ws0 with
  | none =>
    rw [hl] at h
    simp only [Except.ok.injEq] at h
    subst h
    cases ho : lookupEntry other ws0 with
    | some v => exact lookupEntry_append_of_some ho _
    | none =>
      rw [lookupEntry_append_of_none ho]
      have : ¬ user = other := fun hc => hne hc.symm
      simp [lookupEntry, this]
  | some v =>
    cases v with
    | file c => rw [hl] at h; simp at h
    | dir es =>
      rw [hl] at h
      simp only [Except.ok.injEq] at h
      subst h
      rfl

theorem namespaceEntries_of_lookup {user : String} {ws : List (String × Entry)}
    {es : List (String × Entry)} (h : lookupEntry user ws = some (Entry.dir es)) :
    namespaceEntries user ws = es := by
  unfold namespaceEntries
  rw [h]

theorem copy_scripts_ok_shape {fs : FsEnv} {cfgExclude : Option (List String)} {user : String}
    {s s' : SyncState} {cnt : Nat} {b : Bool} (hsrc : s.scriptsRootExists = true)
    (h : copy_scripts_to_repo fs cfgExclude user s = Except.ok (s', cnt, b)) :
    ∃ ws es, mkdirUserFolder user s.worktree = Except.ok ws
      ∧ processFolders fs (excludeExtensionsOf cfgExclude) s.scriptsRoot
          (namespaceEntries user ws) 0 = Except.ok (es, cnt)
      ∧ s' = { s with worktree := updateEntry user (Entry.dir es) ws }
      ∧ b = decide (0 < cnt) := by
  unfold copy_scripts_to_repo at h
  rw [hsrc] at h
  simp only [if_true] at h
  cases hmk : mkdirUserFolder user s.worktree with
  | error e => rw [hmk] at h; simp at h
  | ok ws =>
    rw [hmk] at h
    simp only at h
    cases hpf : processFolders fs (excludeExtensionsOf cfgExclude) s.scriptsRoot
        (namespaceEntries user ws) 0 with
    | error e => rw [hpf] at h; simp at h
    | ok r =>
      obtain ⟨es, cf⟩ := r
      rw [hpf] at h
      simp only [Except.ok.injEq, Prod.mk.injEq] at h
      obtain ⟨hs', hcnt, hb⟩ := h
      subst hcnt
      refine ⟨ws, es, rfl, hpf, ?_, hb.symm⟩
      rw [← hs', hsrc]

theorem copy_scripts_eq {fs : FsEnv} (cfgExclude : Option (List String)) (user : String)
    {s : SyncState} (hsrc : s.scriptsRootExists = true) (hrm : ∀ n, fs.failRmtree n = false)
    (huser : isFileEntryOpt (lookupEntry user s.worktree) = false) :
    copy_scripts_to_repo fs cfgExclude user s
      = Except.ok ({ s with worktree := mirrorWorktree fs cfgExclude user s.scriptsRoot s.worktree },
          mirrorTotal fs (excludeExtensionsOf cfgExclude) s.scriptsRoot,
          decide (0 < mirrorTotal fs (excludeExtensionsOf cfgExclude) s.scriptsRoot)) := by
  unfold copy_scripts_to_repo
  rw [hsrc]
  simp only [if_true]
  rw [mkdirUserFolder_ok huser]
  simp only
  rw [processFolders_eq hrm]
  simp [mirrorWorktree]

theorem mkdirApplied_of_lookup_some {user : String} {ws : List (String × Entry)} {v : Entry}
    (h : lookupEntry user ws = some v) : mkdirApplied user ws = ws := by
  unfold mkdirApplied
  rw [h]

theorem lookup_mkdirApplied {user : String} {ws : List (String × Entry)}
    (h : isFileEntryOpt (lookupEntry user ws) = false) :
    ∃ es, lookupEntry user (mkdirApplied user ws) = some (Entry.dir es) := by
  unfold mkdirApplied
  cases hl : lookupEntry user ws with
  | none =>
    refine ⟨[], ?_⟩
    rw [lookupEntry_append_of_none hl]
    simp [lookupEntry]
  | some v =>
    cases v with
    | file c => rw [hl] at h; simp [isFileEntryOpt] at h
    | dir es => exact ⟨es, hl⟩

theorem lookup_mirrorWorktree (fs : FsEnv) (cfgExclude : Option (List String)) (user : String)
    (src : List (String × Entry)) {ws : List (String × Entry)}
    (h : isFileEntryOpt (lookupEntry user ws) = false) :
    lookupEntry user (mirrorWorktree fs cfgExclude user src ws)
      = some (Entry.dir (List.foldl (mirrorStep fs (excludeExtensionsOf cfgExclude))
          (namespaceEntries user (mkdirApplied user ws)) src)) := by
  obtain ⟨es, hes⟩ := lookup_mkdirApplied h
  exact lookupEntry_updateEntry_self hes _

theorem mirrorWorktree_idem (fs : FsEnv) (cfgExclude : Option (List String)) (user : String)
    (src : List (String × Entry)) {ws : List (String × Entry)}
    (h : isFileEntryOpt (lookupEntry user ws) = false) :
    mirrorWorktree fs cfgExclude user src (mirrorWorktree fs cfgExclude user src ws)
      = mirrorWorktree fs cfgExclude user src ws := by
  have hlook := lookup_mirrorWorktree fs cfgExclude user src h
  have hmk2 : mkdirApplied user (mirrorWorktree fs cfgExclude user src ws)
      = mirrorWorktree fs cfgExclude user src ws := mkdirApplied_of_lookup_some hlook
  conv_lhs => rw [mirrorWorktree]
  rw [hmk2, namespaceEntries_of_lookup hlook, foldl_mirrorStep_idem]
  conv_lhs => rw [mirrorWorktree]
  rw [updateEntry_updateEntry]
  rfl

/-! ### The exclusion predicate and the filtered copy -/

theorem py_endswith_iff (name ext : String) :
    py_endswith name ext = true ↔ ext.data <:+ name.data := by
  simp [py_endswith, List.isSuffixOf_iff_suffix]

theorem shouldExclude_iff (f : String) (S : List String) :
    shouldExclude f S = true ↔ ∃ s ∈ S, s.data <:+ f.data := by
  simp [shouldExclude, List.any_eq_true, py_endswith_iff]

theorem filterEntries_mem_file {S : List String} {n c : String} :
    ∀ {entries : List (String × Entry)}, (n, Entry.file c) ∈ entries →
      shouldExclude n S = false → (n, Entry.file c) ∈ filterEntries S entries := by
  intro entries
  induction entries with
  | nil => intro h; simp at h
  | cons hd tl ih =>
    intro h hex
    rcases List.mem_cons.1 h with heq | hmem
    · subst heq
      simp [filterEntries, hex]
    · obtain ⟨m, e⟩ := hd
      cases e with
      | file k =>
        by_cases hm : shouldExclude m S = true
        · simp only [filterEntries, hm, if_true]
          exact ih hmem hex
        · simp only [Bool.not_eq_true] at hm
          simp only [filterEntries, hm, Bool.false_eq_true, if_false]
          exact List.mem_cons_of_mem _ (ih hmem hex)
      | dir ds =>
        simp only [filterEntries]
        exact List.mem_cons_of_mem _ (ih hmem hex)

theorem hasPathIn_filterEntries (ex : List String) (n : String) (rest : List String)
    (hrec : ∀ e : Entry, hasPath rest (filterEntry ex e) = true → hasPath rest e = true) :
    ∀ es : List (String × Entry),
      hasPathIn n rest (filterEntries ex es) = true → hasPathIn n rest es = true := by
  intro es
  induction es with
  | nil => intro h; simp [filterEntries, hasPathIn] at h
  | cons hd tl ih =>
    intro h
    obtain ⟨m, c⟩ := hd
    cases c with
    | file k =>
      by_cases hexc : shouldExclude m ex = true
      · simp only [filterEntries, hexc, if_true] at h
        simp only [hasPathIn]
        rw [ih h]
        simp
      · simp only [Bool.not_eq_true] at hexc
        simp only [filterEntries, hexc, Bool.false_eq_true, if_false, hasPathIn] at h ⊢
        rcases Bool.or_eq_true_iff.1 h with h1 | h1
        · rw [h1]
          simp
        · rw [ih h1]
          simp
    | dir ds =>
      simp only [filterEntries, hasPathIn] at h ⊢
      rcases Bool.or_eq_true_iff.1 h with h1 | h1
      · rcases Bool.and_eq_true_iff.1 h1 with ⟨hmn, hp⟩
        have : hasPath rest (filterEntry ex (Entry.dir ds)) = true := by
          rw [filterEntry]
          exact hp
        rw [hmn, hrec _ this]
        simp
      · rw [ih h1]
        simp

theorem hasPath_filterEntry (ex : List String) :
    ∀ (p : List String) (e : Entry), hasPath p (filterEntry ex e) = true →
      hasPath p e = true := by
  intro p
  induction p with
  | nil => intro e _; simp [hasPath]
  | cons n rest ih =>
    intro e h
    cases e with
    | file c =>
      rw [filterEntry] at h
      exact h
    | dir es =>
      rw [filterEntry] at h
      simp only [hasPath] at h ⊢
      exact hasPathIn_filterEntries ex n rest ih es h

/-! ### Small facts about the orchestration stages -/

theorem setup_git_repo_trace (beh : GitBehavior) (s : SyncState) {ok1 : Bool} {s1 : SyncState}
    {tr1 : List GitCmd} (h : setup_git_repo beh s = (ok1, s1, tr1)) :
    tr1 = [GitCmd.pull] ∨ tr1 = [GitCmd.clone] := by
  unfold setup_git_repo at h
  by_cases hrepo : s.repoExists = true
  · simp only [hrepo, if_true, Prod.mk.injEq] at h
    exact Or.inl h.2.2.symm
  · simp only [Bool.not_eq_true] at hrepo
    simp only [hrepo, Bool.false_eq_true, if_false] at h
    by_cases hc : (beh.clone s).1 = true
    · simp only [hc, if_true, Prod.mk.injEq] at h
      exact Or.inr h.2.2.symm
    · simp only [Bool.not_eq_true] at hc
      simp only [hc, Bool.false_eq_true, if_false, Prod.mk.injEq] at h
      exact Or.inr h.2.2.symm

theorem sync_to_git_nocopy_eq {beh : GitBehavior} {fs : FsEnv}
    {cfgExclude : Option (List String)} {user : String} {s s1 s2 : SyncState}
    {tr1 : List GitCmd} {cnt : Nat}
    (hsetup : setup_git_repo beh s = (true, s1, tr1))
    (hcopy : copy_scripts_to_repo fs cfgExclude user s1 = Except.ok (s2, cnt, false)) :
    sync_to_git beh fs cfgExclude user s = Except.ok (true, s2, tr1) := by
  unfold sync_to_git
  rw [hsetup]
  simp only [Bool.not_true, Bool.false_eq_true, if_false]
  rw [hcopy]
  simp

theorem sync_to_git_publisher_eq {beh : GitBehavior} {fs : FsEnv}
    {cfgExclude : Option (List String)} {user : String} {s s1 s2 : SyncState}
    {tr1 : List GitCmd} {cnt : Nat}
    (hsetup : setup_git_repo beh s = (true, s1, tr1))
    (hcopy : copy_scripts_to_repo fs cfgExclude user s1 = Except.ok (s2, cnt, true)) :
    sync_to_git beh fs cfgExclude user s
      = Except.ok ((commit_and_push_changes beh s2).1, (commit_and_push_changes beh s2).2.1,
          tr1 ++ (commit_and_push_changes beh s2).2.2) := by
  unfold sync_to_git
  rw [hsetup]
  simp only [Bool.not_true, Bool.false_eq_true, if_false]
  rw [hcopy]
  simp

theorem applyPull_of_synced {s : SyncState} (h : s.remoteTree = s.headTree) :
    applyPull s = s := by
  obtain ⟨a, b, c, d, e, f⟩ := s
  simp only at h
  unfold applyPull
  by_cases hb : beqEntries d e = true
  · simp [h, hb, (beqEntries_iff _ _).1 hb]
  · simp only [Bool.not_eq_true] at hb
    simp [h, hb]

theorem setup_honest_synced {net : NetEnv} {s : SyncState} (hpull : net.pullOk = true)
    (hrepo : s.repoExists = true) (hsync : s.remoteTree = s.headTree) :
    setup_git_repo (honestGit net) s = (true, s, [GitCmd.pull]) := by
  unfold setup_git_repo honestGit
  simp [hrepo, hpull, applyPull_of_synced hsync]

theorem commit_and_push_honest_clean {net : NetEnv} {s : SyncState}
    (hclean : beqEntries s.worktree s.headTree = true) :
    commit_and_push_changes (honestGit net) s = (true, s, [GitCmd.status]) := by
  unfold commit_and_push_changes honestGit
  simp [hclean, py_strip_empty]

theorem commit_and_push_honest_dirty {net : NetEnv} {s : SyncState}
    (hpush : net.pushOk = true) (hdirty : beqEntries s.worktree s.headTree = false) :
    commit_and_push_changes (honestGit net) s
      = (true, { s with headTree := s.worktree, remoteTree := s.worktree },
          [GitCmd.status, GitCmd.add, GitCmd.commit, GitCmd.push]) := by
  unfold commit_and_push_changes honestGit
  simp [hdirty, py_strip_empty, isPySpace, hpush]

theorem sync_honest_noop {net : NetEnv} {fs : FsEnv} {cfgExclude : Option (List String)}
    {user : String} {t : SyncState}
    (hpull : net.pullOk = true) (hrm : ∀ n, fs.failRmtree n = false)
    (hrepo : t.repoExists = true) (hsrc : t.scriptsRootExists = true)
    (hsync : t.remoteTree = t.headTree)
    (huser : isFileEntryOpt (lookupEntry user t.worktree) = false)
    (hfix : mirrorWorktree fs cfgExclude user t.scriptsRoot t.worktree = t.worktree)
    (hclean : 0 < mirrorTotal fs (excludeExtensionsOf cfgExclude) t.scriptsRoot →
      beqEntries t.worktree t.headTree = true) :
    ∃ tr2, sync_to_git (honestGit net) fs cfgExclude user t = Except.ok (true, t, tr2)
      ∧ (tr2 = [GitCmd.pull] ∨ tr2 = [GitCmd.pull, GitCmd.status])
      ∧ GitCmd.commit ∉ tr2 ∧ GitCmd.push ∉ tr2 := by
  have hsetup := setup_honest_synced hpull hrepo hsync
  have hcopy := copy_scripts_eq cfgExclude user hsrc hrm huser
  rw [hfix] at hcopy
  have heta : { t with worktree := t.worktree } = t := rfl
  rw [heta] at hcopy
  by_cases hT : 0 < mirrorTotal fs (excludeExtensionsOf cfgExclude) t.scriptsRoot
  · have hcopy' : copy_scripts_to_repo fs cfgExclude user t
        = Except.ok (t, mirrorTotal fs (excludeExtensionsOf cfgExclude) t.scriptsRoot, true) := by
      rw [hcopy]
      simp [hT]
    refine ⟨[GitCmd.pull, GitCmd.status], ?_, Or.inr rfl, by simp, by simp⟩
    rw [sync_to_git_publisher_eq hsetup hcopy', commit_and_push_honest_clean (hclean hT)]
    simp
  · have hcopy' : copy_scripts_to_repo fs cfgExclude user t
        = Except.ok (t, mirrorTotal fs (excludeExtensionsOf cfgExclude) t.scriptsRoot, false) := by
      rw [hcopy]
      simp [hT]
    refine ⟨[GitCmd.pull], ?_, Or.inl rfl, by simp, by simp⟩
    exact sync_to_git_nocopy_eq hsetup hcopy'

/-! ### Claims -/

/-- C10: when the configuration supplies no `sync.exclude_extensions`
entry, the exclusion suffix set used by the Mirror Copier is exactly
`['.tmp', '.log', '.bak']` — a strict, two-entry-shorter initial segment
of the five-entry list written into the generated sample configuration. -/
theorem c10_default_exclusions :
    excludeExtensionsOf none = [".tmp", ".log", ".bak"]
    ∧ sampleConfigExcludeExtensions = excludeExtensionsOf none ++ [".swp", ".DS_Store"]
    ∧ (excludeExtensionsOf none).length = 3
    ∧ sampleConfigExcludeExtensions.length = 5 := by
  refine ⟨rfl, rfl, rfl, rfl⟩

/-- C3: the exclusion predicate holds iff the file name ends with some
configured suffix (case-sensitive exact suffix match on the character
sequence), and a file entry matching no suffix survives the exclusion walk
of the mirror copy. -/
theorem c3_exclusion_predicate (f : String) (S : List String) :
    (shouldExclude f S = true ↔ ∃ s ∈ S, s.data <:+ f.data)
    ∧ ∀ (entries : List (String × Entry)) (n c : String),
        (n, Entry.file c) ∈ entries → shouldExclude n S = false →
        (n, Entry.file c) ∈ filterEntries S entries := by
  refine ⟨shouldExclude_iff f S, ?_⟩
  intro entries n c hmem hex
  exact filterEntries_mem_file hmem hex

/-- Witness for C3 at concrete inputs: `notes.log` matches the suffix set
`['.tmp', '.log']`, and the non-matching `run.sh` survives filtering. -/
theorem c3_exclusion_predicate_witness :
    (shouldExclude "notes.log" [".tmp", ".log"] = true ↔
      ∃ s ∈ [".tmp", ".log"], s.data <:+ "notes.log".data)
    ∧ ("run.sh", Entry.file "echo hi") ∈
        filterEntries [".tmp", ".log"] [("a.tmp", Entry.file "x"), ("run.sh", Entry.file "echo hi")] := by
  refine ⟨(c3_exclusion_predicate "notes.log" [".tmp", ".log"]).1, ?_⟩
  exact (c3_exclusion_predicate "run.sh" [".tmp", ".log"]).2
    [("a.tmp", Entry.file "x"), ("run.sh", Entry.file "echo hi")] "run.sh" "echo hi"
    (by simp) (by decide)

/-- C2 counterexample: a git behaviour whose status query reports
differences but whose commit step exits unsuccessfully with
nothing-to-commit makes `commit_and_push_changes` return `False` (the
fatal commit-error path, after issuing status, add and commit) — not the
successful `NoChanges` no-op the claim requires. -/
theorem c2_empty_stage_counterexample :
    (commit_and_push_changes emptyStageGit ⟨true, [], true, [], [], []⟩).1 = false
    ∧ (commit_and_push_changes emptyStageGit ⟨true, [], true, [], [], []⟩).2.2
        = [GitCmd.status, GitCmd.add, GitCmd.commit] := by
  refine ⟨by decide, by decide⟩

/-- C2 (amended): when the status query reports differences (non-empty
stripped output) and staging succeeds but the commit step reports failure
— as `git commit` does when there is nothing to commit — the publisher
returns `False` through the uniform commit-error path; the empty-stage
edge case is not special-cased into a successful `NoChanges`. -/
theorem c2_commit_failure_is_fatal (beh : GitBehavior) (s : SyncState)
    (hst : (beh.status s).1 = true)
    (hdiff : py_strip_empty (beh.status s).2.1 = false)
    (hadd : (beh.addAll (beh.status s).2.2).1 = true)
    (hcommit : (beh.commit (beh.addAll (beh.status s).2.2).2.2).1 = false) :
    commit_and_push_changes beh s
      = (false, (beh.commit (beh.addAll (beh.status s).2.2).2.2).2.2,
          [GitCmd.status, GitCmd.add, GitCmd.commit]) := by
  unfold commit_and_push_changes
  simp [hst, hdiff, hadd, hcommit]

/-- Witness for C2's amended theorem at the concrete empty-stage
behaviour. -/
theorem c2_commit_failure_is_fatal_witness :
    commit_and_push_changes emptyStageGit ⟨true, [], true, [], [], []⟩
      = (false, ⟨true, [], true, [], [], []⟩, [GitCmd.status, GitCmd.add, GitCmd.commit]) :=
  c2_commit_failure_is_fatal emptyStageGit ⟨true, [], true, [], [], []⟩
    (by decide) (by decide) (by decide) (by decide)

/-- C6: `setup_git_repo` distinguishes the two error policies: with an
existing repo path a pull failure is non-fatal (`True` is returned and the
local state is kept unchanged), while without a repo path a clone failure
makes the whole run abort with verdict `False` before any mirroring, the
working tree untouched and only the clone command issued. -/
theorem c6_workspace_error_policy (net : NetEnv) (fs : FsEnv)
    (cfgExclude : Option (List String)) (user : String) (s : SyncState) :
    (s.repoExists = true → net.pullOk = false →
      setup_git_repo (honestGit net) s = (true, s, [GitCmd.pull]))
    ∧ (s.repoExists = false → net.cloneOk = false →
      sync_to_git (honestGit net) fs cfgExclude user s
        = Except.ok (false, s, [GitCmd.clone])) := by
  constructor
  · intro hrepo hpull
    unfold setup_git_repo honestGit
    simp [hrepo, hpull]
  · intro hrepo hclone
    unfold sync_to_git setup_git_repo honestGit
    simp [hrepo, hclone]

/-- Witness for C6: both branches at concrete states with the network
down. -/
theorem c6_workspace_error_policy_witness :
    setup_git_repo (honestGit ⟨false, false, false⟩) ⟨true, [], true, [], [], []⟩
      = (true, ⟨true, [], true, [], [], []⟩, [GitCmd.pull])
    ∧ sync_to_git (honestGit ⟨false, false, false⟩) noFailFs none "alice"
        ⟨true, [], false, [], [], []⟩
      = Except.ok (false, ⟨true, [], false, [], [], []⟩, [GitCmd.clone]) :=
  ⟨(c6_workspace_error_policy ⟨false, false, false⟩ noFailFs none "alice"
      ⟨true, [], true, [], [], []⟩).1 rfl rfl,
   (c6_workspace_error_policy ⟨false, false, false⟩ noFailFs none "alice"
      ⟨true, [], false, [], [], []⟩).2 rfl rfl⟩

/-- C1 counterexample: with the scripts source root missing the run does
not terminate with a distinct failure verdict — it returns the same
successful verdict `True`, final state and command trace as a genuine
"nothing to sync" run whose scripts root exists but is empty. -/
theorem c1_missing_scripts_counterexample :
    sync_to_git (honestGit ⟨true, true, true⟩) noFailFs none "alice"
        ⟨false, [], true, [("alice", Entry.dir [])], [], []⟩
      = Except.ok (true, ⟨false, [], true, [("alice", Entry.dir [])], [], []⟩, [GitCmd.pull])
    ∧ sync_to_git (honestGit ⟨true, true, true⟩) noFailFs none "alice"
        ⟨true, [], true, [("alice", Entry.dir [])], [], []⟩
      = Except.ok (true, ⟨true, [], true, [("alice", Entry.dir [])], [], []⟩, [GitCmd.pull]) := by
  constructor
  · unfold sync_to_git setup_git_repo honestGit applyPull copy_scripts_to_repo
    simp [beqEntries, lookupEntry]
  · unfold sync_to_git setup_git_repo honestGit applyPull copy_scripts_to_repo
      mkdirUserFolder namespaceEntries processFolders
    simp [beqEntries, lookupEntry, updateEntry]

/-- C1 (amended): if the scripts source root does not exist when the
mirror stage runs (and workspace setup succeeded), the mirror stage
returns `False` without touching the working tree, the orchestrator
treats this exactly like the "nothing to sync" case — overall verdict
`True`, a success — and the Change Publisher stage is never invoked; the
missing directory is reported only in log output, not by a distinct
verdict. -/
theorem c1_missing_scripts_soft_success (beh : GitBehavior) (fs : FsEnv)
    (cfgExclude : Option (List String)) (user : String) (s : SyncState)
    {ok1 : Bool} {s1 : SyncState} {tr1 : List GitCmd}
    (hsetup : setup_git_repo beh s = (ok1, s1, tr1)) (hok : ok1 = true)
    (hmissing : s1.scriptsRootExists = false) :
    sync_to_git beh fs cfgExclude user s = Except.ok (true, s1, tr1)
    ∧ ∀ c ∈ tr1, isPublisherCmd c = false := by
  subst hok
  constructor
  · have hcopy : copy_scripts_to_repo fs cfgExclude user s1 = Except.ok (s1, 0, false) := by
      unfold copy_scripts_to_repo
      rw [hmissing]
      simp
    exact sync_to_git_nocopy_eq hsetup hcopy
  · intro c hc
    rcases setup_git_repo_trace beh s hsetup with h | h <;> subst h <;>
      simp only [List.mem_singleton] at hc <;> subst hc <;> rfl

/-- Witness for C1's amended theorem at a concrete state. -/
theorem c1_missing_scripts_soft_success_witness :
    sync_to_git (honestGit ⟨true, true, true⟩) noFailFs none "alice"
        ⟨false, [], true, [("alice", Entry.dir [])], [], []⟩
      = Except.ok (true, ⟨false, [], true, [("alice", Entry.dir [])], [], []⟩, [GitCmd.pull])
    ∧ ∀ c ∈ [GitCmd.pull], isPublisherCmd c = false :=
  c1_missing_scripts_soft_success (honestGit ⟨true, true, true⟩) noFailFs none "alice"
    ⟨false, [], true, [("alice", Entry.dir [])], [], []⟩
    (by unfold setup_git_repo honestGit applyPull; simp [beqEntries]) rfl rfl

/-- C4: whenever the mirror stage returns a files-copied count of 0, the
orchestrator skips the Change Publisher — no status, add, commit or push
command is ever issued — and the run's verdict is the success `True`. -/
theorem c4_zero_copy_short_circuit (beh : GitBehavior) (fs : FsEnv)
    (cfgExclude : Option (List String)) (user : String) (s : SyncState)
    {ok1 : Bool} {s1 s2 : SyncState} {tr1 : List GitCmd} {b : Bool}
    (hsetup : setup_git_repo beh s = (ok1, s1, tr1)) (hok : ok1 = true)
    (hcopy : copy_scripts_to_repo fs cfgExclude user s1 = Except.ok (s2, 0, b)) :
    sync_to_git beh fs cfgExclude user s = Except.ok (true, s2, tr1)
    ∧ ∀ c ∈ tr1, isPublisherCmd c = false := by
  subst hok
  have hb : b = false := by
    by_cases hsrc : s1.scriptsRootExists = true
    · obtain ⟨ws, es, _, _, _, hb⟩ := copy_scripts_ok_shape hsrc hcopy
      rw [hb]
      decide
    · simp only [Bool.not_eq_true] at hsrc
      unfold copy_scripts_to_repo at hcopy
      rw [hsrc] at hcopy
      simp only [Bool.false_eq_true, if_false, Except.ok.injEq, Prod.mk.injEq] at hcopy
      exact hcopy.2.2.symm
  subst hb
  constructor
  · exact sync_to_git_nocopy_eq hsetup hcopy
  · intro c hc
    rcases setup_git_repo_trace beh s hsetup with h | h <;> subst h <;>
      simp only [List.mem_singleton] at hc <;> subst hc <;> rfl

/-- Witness for C4 at a concrete state whose only source entries are an
excluded file inside one app folder (count 0 after filtering) — the trace
stays `[pull]`. -/
theorem c4_zero_copy_short_circuit_witness :
    sync_to_git (honestGit ⟨true, true, true⟩) noFailFs none "alice"
        ⟨true, [("app", Entry.dir [("junk.tmp", Entry.file "x")])], true,
          [("alice", Entry.dir [])], [], []⟩
      = Except.ok (true,
          ⟨true, [("app", Entry.dir [("junk.tmp", Entry.file "x")])], true,
            [("alice", Entry.dir [("app", Entry.dir [])])], [], []⟩, [GitCmd.pull])
    ∧ ∀ c ∈ [GitCmd.pull], isPublisherCmd c = false :=
  @c4_zero_copy_short_circuit (honestGit ⟨true, true, true⟩) noFailFs none "alice"
    ⟨true, [("app", Entry.dir [("junk.tmp", Entry.file "x")])], true,
      [("alice", Entry.dir [])], [], []⟩
    true
    ⟨true, [("app", Entry.dir [("junk.tmp", Entry.file "x")])], true,
      [("alice", Entry.dir [])], [], []⟩
    ⟨true, [("app", Entry.dir [("junk.tmp", Entry.file "x")])], true,
      [("alice", Entry.dir [("app", Entry.dir [])])], [], []⟩
    [GitCmd.pull] false
    (by simp [setup_git_repo, honestGit, applyPull, beqEntries]) rfl
    (by simp +decide [copy_scripts_to_repo, mkdirUserFolder, namespaceEntries, processFolders,
      noFailFs, lookupEntry, isAppFolder, Entry.isDir, startswithDot, filterEntry,
      filterEntries, shouldExclude, py_endswith, excludeExtensionsOf,
      defaultExcludeExtensions, countEntry, countEntries, updateEntry, eraseEntry])

/-- C7 counterexample: a failure while removing the existing destination
copy of app folder `alpha` (`shutil.rmtree`, which sits outside the `try`
block) aborts the whole mirror operation as an uncaught exception — the
other app folder `beta` is never processed or counted, refuting the
claim's "without aborting the mirror operation". -/
theorem c7_rmtree_failure_counterexample :
    copy_scripts_to_repo ⟨fun n => decide (n = "alpha"), fun _ => false⟩ none "alice"
      ⟨true, [("alpha", Entry.dir []), ("beta", Entry.dir [("f", Entry.file "x")])], true,
        [("alice", Entry.dir [("alpha", Entry.dir [("old", Entry.file "o")])])], [], []⟩
      = Except.error () := by
  simp +decide [copy_scripts_to_repo, mkdirUserFolder, namespaceEntries, processFolders,
    lookupEntry, isAppFolder, Entry.isDir, startswithDot]

/-- C7 (amended): a failure inside the per-folder `try` block (the
recursive copy or the exclusion walk) is caught and only that app folder
is skipped: provided no `shutil.rmtree` call fails, the mirror loop always
completes without an exception, its counter totals exactly the surviving
files of every non-failing app folder (`mirrorTotal`), and every
non-failing app folder still ends up fully mirrored at the destination.
A `shutil.rmtree` failure, by contrast, aborts the whole operation (see
the counterexample). -/
theorem c7_try_failure_skips_only_that_folder (fs : FsEnv) (ex : List String)
    (L d : List (String × Entry)) (c : Nat)
    (hrm : ∀ n, fs.failRmtree n = false) (hnd : keysNodup L)
    {m : String} {em : Entry} (hm : (m, em) ∈ L) (happ : isAppFolder m em = true)
    (hcp : fs.failCopy m = false) :
    processFolders fs ex L d c
      = Except.ok (List.foldl (mirrorStep fs ex) d L, c + mirrorTotal fs ex L)
    ∧ lookupEntry m (List.foldl (mirrorStep fs ex) d L) = some (filterEntry ex em) :=
  ⟨processFolders_eq hrm ex L d c, lookup_foldl_mirror fs ex hnd hm happ hcp d⟩

/-- Witness for C7's amended theorem: the copy of `bad` fails and is
skipped while `good` is still processed and found mirrored. -/
theorem c7_try_failure_skips_only_that_folder_witness :
    processFolders ⟨fun _ => false, fun n => decide (n = "bad")⟩ [".tmp"]
        [("bad", Entry.dir [("x", Entry.file "1")]), ("good", Entry.dir [("y", Entry.file "2")])]
        [] 0
      = Except.ok
          (List.foldl (mirrorStep ⟨fun _ => false, fun n => decide (n = "bad")⟩ [".tmp"]) []
            [("bad", Entry.dir [("x", Entry.file "1")]),
              ("good", Entry.dir [("y", Entry.file "2")])],
            0 + mirrorTotal ⟨fun _ => false, fun n => decide (n = "bad")⟩ [".tmp"]
              [("bad", Entry.dir [("x", Entry.file "1")]),
                ("good", Entry.dir [("y", Entry.file "2")])])
    ∧ lookupEntry "good"
        (List.foldl (mirrorStep ⟨fun _ => false, fun n => decide (n = "bad")⟩ [".tmp"]) []
          [("bad", Entry.dir [("x", Entry.file "1")]),
            ("good", Entry.dir [("y", Entry.file "2")])])
      = some (filterEntry [".tmp"] (Entry.dir [("y", Entry.file "2")])) :=
  c7_try_failure_skips_only_that_folder ⟨fun _ => false, fun n => decide (n = "bad")⟩ [".tmp"]
    [("bad", Entry.dir [("x", Entry.file "1")]), ("good", Entry.dir [("y", Entry.file "2")])]
    [] 0 (fun _ => rfl) (by unfold keysNodup; decide) (by simp) (by decide) (by decide)

/-- C5: an app folder that the mirror loop processes successfully is
replaced wholesale: its destination content is exactly the filtered copy
of the source folder, independent of whatever the workspace previously
held there, and any path absent from the source folder is absent from the
mirrored copy (stray files are gone). -/
theorem c5_full_replace (fs : FsEnv) (cfgExclude : Option (List String)) (user : String)
    {s s' : SyncState} {cnt : Nat} {b : Bool} {name : String} {e : Entry}
    (hsrc : s.scriptsRootExists = true) (hnd : keysNodup s.scriptsRoot)
    (hmem : (name, e) ∈ s.scriptsRoot) (happ : isAppFolder name e = true)
    (hcp : fs.failCopy name = false)
    (hrun : copy_scripts_to_repo fs cfgExclude user s = Except.ok (s', cnt, b)) :
    lookupEntry name (namespaceEntries user s'.worktree)
      = some (filterEntry (excludeExtensionsOf cfgExclude) e)
    ∧ ∀ p : List String, hasPath p e = false →
        hasPath p (filterEntry (excludeExtensionsOf cfgExclude) e) = false := by
  obtain ⟨ws, es, hmk, hpf, hs', _⟩ := copy_scripts_ok_shape hsrc hrun
  constructor
  · obtain ⟨es0, hes0⟩ := mkdirUserFolder_lookup_user hmk
    have hup : lookupEntry user (updateEntry user (Entry.dir es) ws) = some (Entry.dir es) :=
      lookupEntry_updateEntry_self hes0 _
    simp only [hs']
    rw [namespaceEntries_of_lookup hup]
    exact processFolders_ok_lookup fs _ _ _ _ _ _ hpf hnd hmem happ hcp
  · intro p hp
    by_contra hc
    simp only [Bool.not_eq_false] at hc
    have hpath := hasPath_filterEntry (excludeExtensionsOf cfgExclude) p e hc
    rw [hpath] at hp
    exact Bool.noConfusion hp

/-- Witness for C5: the stray file previously in the workspace copy of
`app` is gone; the destination equals the filtered source copy. -/
theorem c5_full_replace_witness :
    lookupEntry "app" (namespaceEntries "alice"
        (SyncState.mk true [("app", Entry.dir [("b", Entry.file "y"), ("a.tmp", Entry.file "x")])]
          true
          (updateEntry "alice" (Entry.dir [("app", Entry.dir [("b", Entry.file "y")])])
            [("alice", Entry.dir [("app", Entry.dir [("stray", Entry.file "s")])])])
          [] []).worktree)
      = some (filterEntry (excludeExtensionsOf none)
          (Entry.dir [("b", Entry.file "y"), ("a.tmp", Entry.file "x")]))
    ∧ ∀ p : List String,
        hasPath p (Entry.dir [("b", Entry.file "y"), ("a.tmp", Entry.file "x")]) = false →
        hasPath p (filterEntry (excludeExtensionsOf none)
          (Entry.dir [("b", Entry.file "y"), ("a.tmp", Entry.file "x")])) = false :=
  @c5_full_replace noFailFs none "alice"
    ⟨true, [("app", Entry.dir [("b", Entry.file "y"), ("a.tmp", Entry.file "x")])], true,
      [("alice", Entry.dir [("app", Entry.dir [("stray", Entry.file "s")])])], [], []⟩
    (SyncState.mk true [("app", Entry.dir [("b", Entry.file "y"), ("a.tmp", Entry.file "x")])]
      true
      (updateEntry "alice" (Entry.dir [("app", Entry.dir [("b", Entry.file "y")])])
        [("alice", Entry.dir [("app", Entry.dir [("stray", Entry.file "s")])])])
      [] [])
    1 true "app" (Entry.dir [("b", Entry.file "y"), ("a.tmp", Entry.file "x")])
    rfl (by unfold keysNodup; decide) (by simp) (by decide) (by decide)
    (by simp +decide [copy_scripts_to_repo, mkdirUserFolder, namespaceEntries, processFolders,
      noFailFs, lookupEntry, isAppFolder, Entry.isDir, startswithDot, filterEntry,
      filterEntries, shouldExclude, py_endswith, excludeExtensionsOf,
      defaultExcludeExtensions, countEntry, countEntries, eraseEntry])

/-- C8: the mirror stage writes and deletes only inside the `user`
namespace of the working tree: every top-level entry of the workspace
under any other name — in particular every other identity's whole
namespace subtree, hence each of its files and directories — is unchanged
by a completed `copy_scripts_to_repo` run. -/
theorem c8_namespace_isolation (fs : FsEnv) (cfgExclude : Option (List String)) (user : String)
    {s s' : SyncState} {cnt : Nat} {b : Bool}
    (hrun : copy_scripts_to_repo fs cfgExclude user s = Except.ok (s', cnt, b))
    {other : String} (hne : other ≠ user) :
    lookupEntry other s'.worktree = lookupEntry other s.worktree := by
  by_cases hsrc : s.scriptsRootExists = true
  · obtain ⟨ws, es, hmk, _, hs', _⟩ := copy_scripts_ok_shape hsrc hrun
    simp only [hs']
    rw [lookupEntry_updateEntry_ne hne _ _]
    exact mkdirUserFolder_lookup_other hmk hne
  · simp only [Bool.not_eq_true] at hsrc
    unfold copy_scripts_to_repo at hrun
    rw [hsrc] at hrun
    simp only [Bool.false_eq_true, if_false, Except.ok.injEq, Prod.mk.injEq] at hrun
    rw [← hrun.1]

/-- Witness for C8: mirroring under `alice` leaves `bob`'s namespace
lookup unchanged. -/
theorem c8_namespace_isolation_witness :
    lookupEntry "bob"
        (SyncState.mk true [("app", Entry.dir [("b", Entry.file "y")])] true
          (updateEntry "alice" (Entry.dir [("app", Entry.dir [("b", Entry.file "y")])])
            [("bob", Entry.dir [("tool", Entry.file "t")]), ("alice", Entry.dir [])])
          [] []).worktree
      = lookupEntry "bob"
          (SyncState.mk true [("app", Entry.dir [("b", Entry.file "y")])] true
            [("bob", Entry.dir [("tool", Entry.file "t")]), ("alice", Entry.dir [])]
            [] []).worktree :=
  @c8_namespace_isolation noFailFs none "alice"
    ⟨true, [("app", Entry.dir [("b", Entry.file "y")])], true,
      [("bob", Entry.dir [("tool", Entry.file "t")]), ("alice", Entry.dir [])], [], []⟩
    (SyncState.mk true [("app", Entry.dir [("b", Entry.file "y")])] true
      (updateEntry "alice" (Entry.dir [("app", Entry.dir [("b", Entry.file "y")])])
        [("bob", Entry.dir [("tool", Entry.file "t")]), ("alice", Entry.dir [])])
      [] [])
    1 true
    (by simp +decide [copy_scripts_to_repo, mkdirUserFolder, namespaceEntries, processFolders,
      noFailFs, lookupEntry, isAppFolder, Entry.isDir, startswithDot, filterEntry,
      filterEntries, shouldExclude, py_endswith, excludeExtensionsOf,
      defaultExcludeExtensions, countEntry, countEntries, eraseEntry])
    "bob" (by decide)

/-- C9: with the git tool honest and the network up, running the whole
pipeline twice in succession with no change to the scripts source root
makes the second run a no-op `NoChanges` success: the second mirror
reproduces the identical workspace tree and state, the second run issues
at most a pull and a status query (its status query, when reached, finds
the working tree equal to `HEAD`), and no commit or push is issued. -/
theorem c9_pipeline_idempotent (net : NetEnv) (fs : FsEnv)
    (cfgExclude : Option (List String)) (user : String) (s : SyncState)
    (hpull : net.pullOk = true) (hpush : net.pushOk = true)
    (hrm : ∀ n, fs.failRmtree n = false)
    (hrepo : s.repoExists = true) (hsrc : s.scriptsRootExists = true)
    (hsync : s.remoteTree = s.headTree)
    (huser : isFileEntryOpt (lookupEntry user s.worktree) = false) :
    ∃ b1 s2 tr1, sync_to_git (honestGit net) fs cfgExclude user s = Except.ok (b1, s2, tr1)
      ∧ ∃ tr2, sync_to_git (honestGit net) fs cfgExclude user s2 = Except.ok (true, s2, tr2)
        ∧ (tr2 = [GitCmd.pull] ∨ tr2 = [GitCmd.pull, GitCmd.status])
        ∧ GitCmd.commit ∉ tr2 ∧ GitCmd.push ∉ tr2 := by
  have hsetup := setup_honest_synced hpull hrepo hsync
  have hcopy := copy_scripts_eq cfgExclude user hsrc hrm huser
  have huser2 : isFileEntryOpt (lookupEntry user
      (mirrorWorktree fs cfgExclude user s.scriptsRoot s.worktree)) = false := by
    rw [lookup_mirrorWorktree fs cfgExclude user s.scriptsRoot huser]
    rfl
  have hfix := mirrorWorktree_idem fs cfgExclude user s.scriptsRoot huser
  by_cases hT : 0 < mirrorTotal fs (excludeExtensionsOf cfgExclude) s.scriptsRoot
  · have hdec : decide (0 < mirrorTotal fs (excludeExtensionsOf cfgExclude) s.scriptsRoot)
        = true := by simp [hT]
    rw [hdec] at hcopy
    by_cases hW : beqEntries (mirrorWorktree fs cfgExclude user s.scriptsRoot s.worktree)
        s.headTree = true
    · refine ⟨true, { s with worktree := mirrorWorktree fs cfgExclude user s.scriptsRoot s.worktree },
        [GitCmd.pull] ++ [GitCmd.status], ?_, ?_⟩
      · rw [sync_to_git_publisher_eq hsetup hcopy, commit_and_push_honest_clean hW]
      · exact sync_honest_noop hpull hrm hrepo hsrc hsync huser2 hfix (fun _ => hW)
    · simp only [Bool.not_eq_true] at hW
      refine ⟨true,
        ⟨s.scriptsRootExists, s.scriptsRoot, s.repoExists,
          mirrorWorktree fs cfgExclude user s.scriptsRoot s.worktree,
          mirrorWorktree fs cfgExclude user s.scriptsRoot s.worktree,
          mirrorWorktree fs cfgExclude user s.scriptsRoot s.worktree⟩,
        [GitCmd.pull] ++ [GitCmd.status, GitCmd.add, GitCmd.commit, GitCmd.push], ?_, ?_⟩
      · rw [sync_to_git_publisher_eq hsetup hcopy,
          commit_and_push_honest_dirty hpush hW]
      · exact sync_honest_noop hpull hrm hrepo hsrc rfl huser2 hfix
          (fun _ => beqEntries_self _)
  · have hdec : decide (0 < mirrorTotal fs (excludeExtensionsOf cfgExclude) s.scriptsRoot)
        = false := by simp [hT]
    rw [hdec] at hcopy
    refine ⟨true, { s with worktree := mirrorWorktree fs cfgExclude user s.scriptsRoot s.worktree },
      [GitCmd.pull], sync_to_git_nocopy_eq hsetup hcopy, ?_⟩
    exact sync_honest_noop hpull hrm hrepo hsrc hsync huser2 hfix (fun h => absurd h hT)

/-- Witness for C9 at a concrete initial state: one app folder with one
regular file, empty workspace, remote equal to `HEAD`. -/
theorem c9_pipeline_idempotent_witness :
    ∃ b1 s2 tr1, sync_to_git (honestGit ⟨true, true, true⟩) noFailFs none "alice"
        ⟨true, [("app", Entry.dir [("run.sh", Entry.file "echo")])], true, [], [], []⟩
      = Except.ok (b1, s2, tr1)
      ∧ ∃ tr2, sync_to_git (honestGit ⟨true, true, true⟩) noFailFs none "alice" s2
          = Except.ok (true, s2, tr2)
        ∧ (tr2 = [GitCmd.pull] ∨ tr2 = [GitCmd.pull, GitCmd.status])
        ∧ GitCmd.commit ∉ tr2 ∧ GitCmd.push ∉ tr2 :=
  c9_pipeline_idempotent ⟨true, true, true⟩ noFailFs none "alice"
    ⟨true, [("app", Entry.dir [("run.sh", Entry.file "echo")])], true, [], [], []⟩
    rfl rfl (fun _ => rfl) rfl rfl rfl (by simp [lookupEntry, isFileEntryOpt])

end ScriptSync
